import Mathlib

set_option maxRecDepth 8192

/-!
Verification of the sharm transcoding core against its natural-language
specification.  The Go source is embedded shallowly: pure domain functions
from internal/domain/media.go become Lean functions; the SQL-backed job
queue (queries/jobs.sql, sqlite/jobqueue.go) becomes explicit state passing
over a list of job rows; the worker-pool flows of service/worker.go become
explicit state-transformer functions and a small-step action system; the
event bus of service/events.go becomes a pure function on a subscriber map.
Go int/int64 fields are modelled as Int (no arithmetic is performed on
them), float64 quality values as exact rationals, and Go strings as Lean
strings (a Lean 4 String wraps a list of characters, so all operations are
kernel-executable).
-/

namespace Sharm

/-! ### Domain model, from internal/domain/media.go -/

/-- MediaType, from media.go lines 14-20. -/
inductive MediaType
  | video
  | audio
  | image
deriving DecidableEq

/-- MediaStatus, from media.go lines 22-29. -/
inductive MediaStatus
  | pending
  | processing
  | done
  | failed
deriving DecidableEq

/-- VariantStatus, from media.go lines 39-46. -/
inductive VariantStatus
  | pending
  | processing
  | done
  | failed
deriving DecidableEq

/-- Variant, from media.go lines 48-59.  The Go Codec type is a string
(media.go line 31), kept as String so that unknown codecs behave as in the
source maps. -/
structure Variant where
  id : Int
  mediaId : String
  codec : String
  path : String
  fileSize : Int
  width : Int
  height : Int
  status : VariantStatus
  errorMessage : String
  createdAt : Int
deriving DecidableEq

/-- Media, from media.go lines 61-79. -/
structure Media where
  id : String
  type : MediaType
  originalName : String
  originalPath : String
  convertedPath : String
  status : MediaStatus
  codec : String
  errorMessage : String
  retentionDays : Int
  fileSize : Int
  width : Int
  height : Int
  thumbPath : String
  createdAt : Int
  expiresAt : Int
  variants : List Variant
  probeJSON : String
deriving DecidableEq

/-- MarkAsDone, from media.go lines 118-126. -/
def Media.MarkAsDone (m : Media) (convertedPath : String) (codec : String)
    (width height : Int) (thumbPath : String) (fileSize : Int) : Media :=
  { m with
    status := MediaStatus.done
    convertedPath := convertedPath
    codec := codec
    width := width
    height := height
    thumbPath := thumbPath
    fileSize := fileSize }

/-- AllVariantsTerminal, from media.go lines 134-141: true when every
variant is done or failed. -/
def Media.AllVariantsTerminal (m : Media) : Bool :=
  m.variants.all fun v =>
    v.status == VariantStatus.done || v.status == VariantStatus.failed

/-- HasDoneVariant, from media.go lines 144-151. -/
def Media.HasDoneVariant (m : Media) : Bool :=
  m.variants.any fun v => v.status == VariantStatus.done

/-- BestVariant, from media.go lines 154-161: the loop returns the first
variant in list order whose status is done, or nil. -/
def Media.BestVariant (m : Media) : Option Variant :=
  m.variants.find? fun v => v.status == VariantStatus.done

/-- codecMIME, from media.go lines 164-168; a Go map lookup whose second
result is false on unknown keys is an Option here. -/
def codecMIME (c : String) : Option String :=
  if c = "av1" then some "video/webm"
  else if c = "h264" then some "video/mp4"
  else if c = "opus" then some "audio/ogg"
  else none

/-- codecPriority, from media.go lines 171-175; Go map indexing yields the
zero value 0 for unknown keys. -/
def codecPriority (c : String) : Nat :=
  if c = "av1" then 0
  else if c = "h264" then 1
  else if c = "opus" then 2
  else 0

/-! ### String helpers modelling the Go standard library calls used by
parseAccept and BestVariantForAccept.  They operate on character lists
(a Lean String is a wrapper around one), so they are kernel-executable. -/

/-- Whitespace as trimmed by strings.TrimSpace (ASCII portion: space, tab,
newline, carriage return, vertical tab, form feed). -/
def isGoSpace (c : Char) : Bool :=
  c == ' ' || c == '\t' || c == '\n' || c == '\r' || c.toNat == 11 || c.toNat == 12

/-- Trim leading and trailing whitespace from a character list. -/
def trimChars (l : List Char) : List Char :=
  ((l.dropWhile isGoSpace).reverse.dropWhile isGoSpace).reverse

/-- Model of strings.TrimSpace. -/
def goTrimSpace (s : String) : String :=
  String.mk (trimChars s.toList)

/-- Helper for goSplit: the first returned component is the text before the
first separator, the second the remaining fields. -/
def splitAux (sep : Char) : List Char → List Char × List (List Char)
  | [] => ([], [])
  | c :: cs =>
    let r := splitAux sep cs
    if c = sep then ([], r.1 :: r.2) else (c :: r.1, r.2)

/-- Model of strings.Split with a one-character separator: n separators
yield n+1 fields. -/
def goSplit (sep : Char) (l : List Char) : List (List Char) :=
  let r := splitAux sep l
  r.1 :: r.2

/-- Model of strings.Index with a one-character needle: the text before and
after the first occurrence, or none when the character does not occur. -/
def breakAt (sep : Char) : List Char → Option (List Char × List Char)
  | [] => none
  | c :: cs =>
    if c = sep then some ([], cs)
    else (breakAt sep cs).map fun p => (c :: p.1, p.2)

/-- Numeric value of a digit string. -/
def digitsVal (l : List Char) : Nat :=
  l.foldl (fun a c => a * 10 + (c.toNat - 48)) 0

/-- Exponent part of a float literal: optional sign then one or more
digits. -/
def parseExpChars (cs0 : List Char) : Option Int :=
  let p : Int × List Char :=
    match cs0 with
    | '+' :: r => (1, r)
    | '-' :: r => (-1, r)
    | _ => (1, cs0)
  if p.2 ≠ [] ∧ p.2.all Char.isDigit then some (p.1 * (digitsVal p.2 : Int))
  else none

/-- Model of strconv.ParseFloat(s, 64) as an exact rational, restricted to
plain decimal syntax (optional sign, digits with optional dot, optional
decimal exponent).  Inputs Go would reject return none.  IEEE rounding is
not modelled (the exact decimal value is kept), hex floats, inf/nan and
digit-group underscores are treated as malformed, and magnitudes outside
the float64 range — where Go reports ErrRange, so parseAccept ignores the
q — keep their exact value here. -/
def parseFloatChars (cs0 : List Char) : Option ℚ :=
  let p : ℚ × List Char :=
    match cs0 with
    | '+' :: r => (1, r)
    | '-' :: r => (-1, r)
    | _ => (1, cs0)
  let sgn := p.1
  let cs := p.2
  let ip := cs.takeWhile Char.isDigit
  let cs1 := cs.dropWhile Char.isDigit
  let fr : List Char × List Char :=
    match cs1 with
    | '.' :: r => (r.takeWhile Char.isDigit, r.dropWhile Char.isDigit)
    | _ => ([], cs1)
  let fp := fr.1
  if ip = [] ∧ fp = [] then none
  else
    let mant : ℚ :=
      sgn * ((digitsVal ip : ℚ) + (digitsVal fp : ℚ) / ((10 ^ fp.length : ℕ) : ℚ))
    let applyExp : Int → ℚ := fun ex =>
      if 0 ≤ ex then mant * ((10 ^ ex.toNat : ℕ) : ℚ)
      else mant / ((10 ^ (-ex).toNat : ℕ) : ℚ)
    let withExp : Option ℚ :=
      match fr.2 with
      | [] => some mant
      | 'e' :: r => (parseExpChars r).map applyExp
      | 'E' :: r => (parseExpChars r).map applyExp
      | _ => none
    withExp

/-- acceptEntry, from media.go lines 177-180; the float64 q is modelled as
an exact rational. -/
structure AcceptEntry where
  mime : String
  q : ℚ
deriving DecidableEq

/-- One comma-separated field of an Accept header, as handled by one
iteration of the loop in parseAccept (media.go lines 185-202): empty
fields are skipped, the default q is 1.0 and a malformed q parameter is
ignored. -/
def parseAcceptPart (part0 : List Char) : Option AcceptEntry :=
  let part := trimChars part0
  if part = [] then none
  else
    match breakAt ';' part with
    | none => some ⟨String.mk part, 1⟩
    | some ba =>
      let mime := trimChars ba.1
      let params := trimChars ba.2
      let q : ℚ :=
        match params with
        | 'q' :: '=' :: rest =>
          match parseFloatChars rest with
          | some v => v
          | none => 1
        | _ => 1
      some ⟨String.mk mime, q⟩

/-- parseAccept, from media.go lines 183-204. -/
def parseAccept (header : String) : List AcceptEntry :=
  (goSplit ',' header.toList).filterMap parseAcceptPart

/-- Second conditional of the bestQ loop (media.go lines 241-246): the
type/* wildcard test, HasSuffix on "/\x2a" then HasPrefix against the
entry minus its final star (TrimSuffix removes exactly that character
under the suffix guard). -/
def bestQStep2 (mime : String) (e : AcceptEntry) (b1 : ℚ) : ℚ :=
  if List.isSuffixOf ['/', '*'] e.mime.toList
      ∧ List.isPrefixOf e.mime.toList.dropLast mime.toList ∧ b1 < e.q then e.q
  else b1

/-- One iteration of the bestQ loop (media.go lines 234-247): the exact or
star match first, then the type/* wildcard, each raising bestQ when the
entry's q exceeds it. -/
def bestQStep (mime : String) (bestQ : ℚ) (e : AcceptEntry) : ℚ :=
  bestQStep2 mime e
    (if (e.mime = "*/*" ∨ e.mime = mime) ∧ bestQ < e.q then e.q else bestQ)

/-- Inner loop of BestVariantForAccept (media.go lines 233-247): the
highest q among accept entries matching the given MIME type, starting from
the sentinel -1. -/
def bestQFor (entries : List AcceptEntry) (mime : String) : ℚ :=
  entries.foldl (bestQStep mime) (-1)

/-- candidate, from media.go lines 216-220. -/
structure AcceptCandidate where
  variant : Variant
  q : ℚ
  prio : Nat
deriving DecidableEq

/-- Candidate collection of BestVariantForAccept (media.go lines 223-255):
each done variant with a known codec MIME and a non-negative best matching
q becomes a candidate, in variant list order. -/
def acceptCandidates (m : Media) (entries : List AcceptEntry) : List AcceptCandidate :=
  m.variants.filterMap fun v =>
    if v.status = VariantStatus.done then
      match codecMIME v.codec with
      | some mime =>
        if 0 ≤ bestQFor entries mime then
          some ⟨v, bestQFor entries mime, codecPriority v.codec⟩
        else none
      | none => none
    else none

/-- Selection step of BestVariantForAccept (media.go lines 262-266): a
candidate replaces the current best on strictly higher q, or on equal q
and strictly smaller priority number. -/
def pickBetter (best c : AcceptCandidate) : AcceptCandidate :=
  if best.q < c.q ∨ (c.q = best.q ∧ c.prio < best.prio) then c else best

/-- BestVariantForAccept, from media.go lines 208-268. -/
def Media.BestVariantForAccept (m : Media) (accept0 : String) : Option Variant :=
  let accept := goTrimSpace accept0
  if accept = "" then m.BestVariant
  else
    match acceptCandidates m (parseAccept accept) with
    | [] => none
    | c :: cs => some ((cs.foldl pickBetter c)).variant

/-! ### Job queue, from internal/domain/job.go, the jobs queries
(ClaimNextJob, CompleteJob, FailJob, ResetStalledJobs) and
sqlite/jobqueue.go.  The jobs table is a list of rows; ids are assigned by
AUTOINCREMENT, so rows carry distinct ids in any state reachable from the
real store. -/

/-- JobType, from job.go lines 10-14. -/
inductive JobType
  | convert
  | thumbnail
  | probe
deriving DecidableEq

/-- JobStatus, from job.go lines 18-23. -/
inductive JobStatus
  | pending
  | running
  | done
  | failed
deriving DecidableEq

/-- Job, from job.go lines 25-37; timestamps are abstract instants. -/
structure Job where
  id : Int
  mediaId : String
  type : JobType
  codec : String
  fps : Int
  status : JobStatus
  errorMessage : String
  attempts : Int
  createdAt : Int
  startedAt : Option Int
  completedAt : Option Int
deriving DecidableEq

/-- The subquery of ClaimNextJob: SELECT id FROM jobs WHERE status =
pending ORDER BY created_at ASC LIMIT 1.  Among rows tied on created_at
(second-granularity timestamps) SQLite returns them in table order, so the
fold keeps the first row carrying the minimal creation time. -/
def oldestPendingStep : Option Job → Job → Option Job
  | none, j => if j.status = JobStatus.pending then some j else none
  | some k, j =>
    if j.status = JobStatus.pending ∧ j.createdAt < k.createdAt then some j else some k

def oldestPending (jobs : List Job) : Option Job :=
  jobs.foldl oldestPendingStep none

/-- ClaimNextJob, from the jobs queries (lines 43-54) as wrapped by
JobQueue.Claim (jobqueue.go lines 37-47): conditionally update the oldest
pending row to running, stamp started_at, increment attempts, and return
the updated row; sql.ErrNoRows becomes the none result (nil job, nil
error).  The single UPDATE models the atomicity of the claim. -/
def ClaimNextJob (now : Int) (jobs : List Job) : Option Job × List Job :=
  match oldestPending jobs with
  | none => (none, jobs)
  | some k =>
    (some { k with
        status := JobStatus.running
        startedAt := some now
        attempts := k.attempts + 1 },
     jobs.map fun j =>
       if j.id = k.id then
         { j with
           status := JobStatus.running
           startedAt := some now
           attempts := j.attempts + 1 }
       else j)

/-- CompleteJob, from the jobs queries (lines 56-60). -/
def CompleteJob (jobs : List Job) (jobId : Int) (now : Int) : List Job :=
  jobs.map fun j =>
    if j.id = jobId then { j with status := JobStatus.done, completedAt := some now } else j

/-- FailJob, from the jobs queries (lines 62-67). -/
def FailJob (jobs : List Job) (jobId : Int) (msg : String) (now : Int) : List Job :=
  jobs.map fun j =>
    if j.id = jobId then
      { j with status := JobStatus.failed, errorMessage := msg, completedAt := some now }
    else j

/-- ResetStalledJobs, from the jobs queries (lines 69-73): every running
row becomes pending with started_at cleared. -/
def ResetStalledJobs (jobs : List Job) : List Job :=
  jobs.map fun j =>
    if j.status = JobStatus.running then
      { j with status := JobStatus.pending, startedAt := none }
    else j

/-! ### Store updates touched by the worker pool, from the media and
variant queries (sqlite/store.go and queries/*.sql).  A Media value stands
for the stored row together with its variant rows, as returned by
Store.Get. -/

/-- UpdateMediaStatus: UPDATE media SET status, error_message WHERE id. -/
def UpdateStatus (m : Media) (st : MediaStatus) (msg : String) : Media :=
  { m with status := st, errorMessage := msg }

/-- UpdateVariantStatus: UPDATE media_variants SET status, error_message
WHERE id. -/
def UpdateVariantStatus (m : Media) (vid : Int) (st : VariantStatus) (msg : String) : Media :=
  { m with variants := m.variants.map fun v =>
      if v.id = vid then { v with status := st, errorMessage := msg } else v }

/-- UpdateVariantDone: UPDATE media_variants SET status = done, path,
file_size, width, height WHERE id. -/
def UpdateVariantDone (m : Media) (vid : Int) (path : String) (fileSize w h : Int) : Media :=
  { m with variants := m.variants.map fun v =>
      if v.id = vid then
        { v with status := VariantStatus.done, path := path, fileSize := fileSize,
                 width := w, height := h }
      else v }

/-- GetVariantByMediaAndCodec: SELECT * FROM media_variants WHERE media_id
AND codec LIMIT 1, restricted to the media row at hand. -/
def GetVariantByMediaAndCodec (m : Media) (codec : String) : Option Variant :=
  m.variants.find? fun v => v.codec == codec

/-! ### Worker pool flows, from service/worker.go. -/

/-- Finalization after a variant conversion succeeded, worker.go lines
454-471: once every variant is terminal, the best (first done) variant's
metadata marks the media done via UpdateDone, and with no done variant the
media is marked failed; otherwise only an interim event is published and
the media row is untouched.  Event publication is modelled separately by
the event bus. -/
def finalizeVariantSuccess (m : Media) : Media :=
  if m.AllVariantsTerminal then
    match m.BestVariant with
    | some best =>
      m.MarkAsDone best.path best.codec best.width best.height m.thumbPath best.fileSize
    | none => UpdateStatus m MediaStatus.failed "all conversions failed"
  else m

/-- Finalization inside failVariant, worker.go lines 521-533.  The
BestVariant call there is guarded by HasDoneVariant, so the none arm is
unreachable (Go would dereference nil); it returns the input unchanged. -/
def finalizeVariantFailure (m : Media) : Media :=
  if m.AllVariantsTerminal then
    if m.HasDoneVariant then
      match m.BestVariant with
      | some best =>
        m.MarkAsDone best.path best.codec best.width best.height m.thumbPath best.fileSize
      | none => m
    else UpdateStatus m MediaStatus.failed "all conversions failed"
  else m

/-- failVariant, worker.go lines 506-534: look up the (media, codec)
variant, mark it failed with the job struct's ErrorMessage field, re-fetch
the media and finalize.  A missing variant row returns early with no
update.  Note the message written is job.errorMessage, the value carried
by the in-memory job struct, not the message passed to FailJob. -/
def failVariant (m : Media) (job : Job) : Media :=
  match GetVariantByMediaAndCodec m job.codec with
  | none => m
  | some variant =>
    finalizeVariantFailure
      (UpdateVariantStatus m variant.id VariantStatus.failed job.errorMessage)

/-- Error path of processJob, worker.go lines 351-363: Fail the job row
with the dispatch error text, then for a convert job carrying a codec run
failVariant (which uses the stale in-memory job.errorMessage), and for a
legacy codec-less convert job mark the whole media failed with the
dispatch error text. -/
def processJobError (jobs : List Job) (m : Media) (job : Job) (errMsg : String)
    (now : Int) : List Job × Media :=
  let jobs1 := FailJob jobs job.id errMsg now
  if job.type = JobType.convert ∧ job.codec ≠ "" then (jobs1, failVariant m job)
  else if job.type = JobType.convert then (jobs1, UpdateStatus m MediaStatus.failed errMsg)
  else (jobs1, m)

/-- Thumbnail output path for a media, worker.go line 441 (the converted
directory prefix is dropped; paths are opaque here). -/
def thumbFileName (mediaId : String) : String :=
  mediaId ++ "_thumb.jpg"

/-- Success path of handleConvert/handleVariantConvert for a codec-carrying
job, worker.go lines 370-473: flip a pending media to processing, set the
variant processing, convert (outputPath is the converter's result), probe
the output when the media is a video (probeOk says whether the probe
succeeded, pw/ph its dimensions, pjson its raw metadata), persist the
variant as done, generate a thumbnail when the media is a video without
one (thumbOk says whether that succeeded) — the generated path is assigned
only to the local media variable — then re-fetch the media from the store
(line 449) and finalize (lines 454-471).  The local variable holding the
thumbnail path is discarded by the re-fetch, exactly as in the source. -/
def handleVariantConvertSuccess (st0 : Media) (job : Job) (outputPath : String)
    (probeOk : Bool) (pw ph : Int) (pjson : String) (fsize : Int) (thumbOk : Bool) : Media :=
  let media := st0
  let st1 := if media.status = MediaStatus.pending then UpdateStatus st0 MediaStatus.processing ""
             else st0
  match GetVariantByMediaAndCodec media job.codec with
  | none => st1
  | some variant =>
    let st2 := UpdateVariantStatus st1 variant.id VariantStatus.processing ""
    let dims : Int × Int := if media.type = MediaType.video ∧ probeOk then (pw, ph) else (0, 0)
    let st3 := if media.type = MediaType.video ∧ probeOk ∧ media.probeJSON = ""
               then { st2 with probeJSON := pjson } else st2
    let st4 := UpdateVariantDone st3 variant.id outputPath fsize dims.1 dims.2
    let _mediaWithThumb :=
      if media.type = MediaType.video ∧ media.thumbPath = "" ∧ thumbOk
      then { media with thumbPath := thumbFileName media.id } else media
    finalizeVariantSuccess st4

/-! ### Upload planning, from service/media.go Upload (lines 32-140).
Only the persisted effects relevant to variants and jobs are recorded, in
program order: saving a pending variant row, enqueuing a job, or marking
the media done directly without conversion. -/

/-- One persisted effect of Upload. -/
inductive PlanAct
  | saveVariant (codec : String)
  | enqueueJob (t : JobType) (codec : String)
  | markDoneDirect
deriving DecidableEq

/-- The sequence of variant/job effects of Upload for a given media type
and requested codec list, media.go (service) lines 84-139: images are
marked done directly; video uploads get h264 appended when absent; an
empty effective list marks the media done (enqueueing a thumbnail job for
videos); otherwise each codec yields a pending variant row and a convert
job. -/
def uploadActions (mediaType : MediaType) (codecs0 : List String) : List PlanAct :=
  if mediaType = MediaType.image then [PlanAct.markDoneDirect]
  else
    let codecs := if mediaType = MediaType.video ∧ ¬ codecs0.contains "h264"
                  then codecs0 ++ ["h264"] else codecs0
    if codecs = [] then
      PlanAct.markDoneDirect ::
        (if mediaType = MediaType.video then [PlanAct.enqueueJob JobType.thumbnail ""] else [])
    else
      codecs.flatMap fun c => [PlanAct.saveVariant c, PlanAct.enqueueJob JobType.convert c]

/-! ### Event bus, from service/events.go. -/

/-- Event, from service/worker.go lines 274-278. -/
structure Event where
  type : String
  status : String
  message : String
deriving DecidableEq

/-- A buffered Go channel as seen by the bus: its unread buffer and its
capacity (Subscribe creates channels of capacity 16). -/
structure Channel where
  buf : List Event
  cap : Nat
deriving DecidableEq

/-- The subscriber map of the event bus: media id to its channels (a Go
map lookup on a missing key ranges over the empty slice). -/
abbrev Bus := String → List Channel

/-- A non-blocking send (select with default, events.go lines 50-54): the
event is appended when the buffer has free space and dropped otherwise. -/
def trySend (e : Event) (ch : Channel) : Channel :=
  if ch.buf.length < ch.cap then { ch with buf := ch.buf ++ [e] } else ch

/-- Publish, events.go lines 45-56: a non-blocking send to every channel
subscribed to the media id; other keys are untouched. -/
def Publish (bus : Bus) (mediaId : String) (e : Event) : Bus :=
  fun idd => if idd = mediaId then (bus mediaId).map (trySend e) else bus idd

/-- Subscribe, events.go lines 18-25: a fresh channel with buffer capacity
16 appended under the media id. -/
def Subscribe (bus : Bus) (mediaId : String) : Channel × Bus :=
  (⟨[], 16⟩, fun idd => if idd = mediaId then bus mediaId ++ [⟨[], 16⟩] else bus idd)

/-! ### Small-step system for one convert job and its variant, from
service/worker.go and the queue.  Worker actions are the store/queue
writes the pool performs for a codec-carrying convert job, in their source
order; crash models the process dying while a worker holds the job (the
job row stays running), and resetStalled the recovery sweep run at the
next start (WorkerPool.Start line 300).  The store itself is modelled as
infallible; the only failure source is the converter. -/

/-- Where a worker holding the job stands in processJob. -/
inductive WStage
  | claimed
  | varProcessing
  | varDone
  | erred
  | jobFailed
deriving DecidableEq

/-- Job row status, variant row status, and the holding worker's stage
(none when no live worker holds the job). -/
structure WState where
  jobStatus : JobStatus
  attempts : Int
  varStatus : VariantStatus
  worker : Option WStage
deriving DecidableEq

/-- The observable actions of the system. -/
inductive WAct
  | claimJob
  | startVariant
  | convertOk
  | convertErr
  | failJobAct
  | failVarAct
  | completeAct
  | crash
  | resetStalled
deriving DecidableEq

/-- One step: none when the action's guard does not hold.  claimJob is
JobQueue.Claim; startVariant is UpdateVariantStatus processing (line 402);
convertOk is the converter succeeding plus UpdateVariantDone (line 436);
convertErr is the converter failing (handleVariantConvert returns the
error); failJobAct is jobQueue.Fail (line 353); failVarAct is the variant
update inside failVariant (line 512); completeAct is jobQueue.Complete
(line 366); crash kills the worker without touching rows; resetStalled is
ResetStalledJobs at process start (workers only start afterwards, so no
worker holds the job then). -/
def wstep (a : WAct) (s : WState) : Option WState :=
  match a with
  | WAct.claimJob =>
    if s.jobStatus = JobStatus.pending ∧ s.worker = none then
      some { s with jobStatus := JobStatus.running, attempts := s.attempts + 1,
                    worker := some WStage.claimed }
    else none
  | WAct.startVariant =>
    if s.worker = some WStage.claimed then
      some { s with varStatus := VariantStatus.processing,
                    worker := some WStage.varProcessing }
    else none
  | WAct.convertOk =>
    if s.worker = some WStage.varProcessing then
      some { s with varStatus := VariantStatus.done, worker := some WStage.varDone }
    else none
  | WAct.convertErr =>
    if s.worker = some WStage.varProcessing then
      some { s with worker := some WStage.erred }
    else none
  | WAct.failJobAct =>
    if s.worker = some WStage.erred then
      some { s with jobStatus := JobStatus.failed, worker := some WStage.jobFailed }
    else none
  | WAct.failVarAct =>
    if s.worker = some WStage.jobFailed then
      some { s with varStatus := VariantStatus.failed, worker := none }
    else none
  | WAct.completeAct =>
    if s.worker = some WStage.varDone then
      some { s with jobStatus := JobStatus.done, worker := none }
    else none
  | WAct.crash =>
    if s.worker ≠ none then some { s with worker := none } else none
  | WAct.resetStalled =>
    if s.jobStatus = JobStatus.running ∧ s.worker = none then
      some { s with jobStatus := JobStatus.pending }
    else none

/-- Run a list of actions; none when some guard fails along the way. -/
def wrun : List WAct → WState → Option WState
  | [], s => some s
  | a :: rest, s =>
    match wstep a s with
    | some s' => wrun rest s'
    | none => none

/-- The state right after Upload enqueued the job and saved the pending
variant. -/
def winit : WState :=
  { jobStatus := JobStatus.pending, attempts := 0,
    varStatus := VariantStatus.pending, worker := none }

/-- Position of a variant status in the lifecycle order pending,
processing, done, failed. -/
def varRank : VariantStatus → Nat
  | VariantStatus.pending => 0
  | VariantStatus.processing => 1
  | VariantStatus.done => 2
  | VariantStatus.failed => 3

/-- Terminal variant statuses. -/
def VariantStatus.isTerminal : VariantStatus → Bool
  | VariantStatus.done => true
  | VariantStatus.failed => true
  | _ => false

/-! ### Sample rows shared by witnesses and counterexamples. -/

/-- A variant row with the fields Upload leaves at their defaults. -/
def mkVariant (i : Int) (c : String) (st : VariantStatus) : Variant :=
  { id := i, mediaId := "m1", codec := c, path := "", fileSize := 0, width := 0,
    height := 0, status := st, errorMessage := "", createdAt := 0 }

/-- A media row around a given variant list. -/
def mkMedia (t : MediaType) (st : MediaStatus) (thumb : String) (vs : List Variant) : Media :=
  { id := "m1", type := t, originalName := "in.mp4", originalPath := "up/in.mp4",
    convertedPath := "", status := st, codec := "", errorMessage := "", retentionDays := 7,
    fileSize := 0, width := 0, height := 0, thumbPath := thumb, createdAt := 0,
    expiresAt := 0, variants := vs, probeJSON := "" }

/-! ### General lemmas about the embedded domain functions. -/

/-- HasDoneVariant is the existence of a done variant. -/
theorem hasDoneVariant_iff (m : Media) :
    m.HasDoneVariant = true ↔ ∃ v ∈ m.variants, v.status = VariantStatus.done := by
  simp [Media.HasDoneVariant, List.any_eq_true]

/-- BestVariant returns none exactly when no variant is done. -/
theorem bestVariant_eq_none_iff (m : Media) :
    m.BestVariant = none ↔ ∀ v ∈ m.variants, v.status ≠ VariantStatus.done := by
  simp [Media.BestVariant, List.find?_eq_none]

/-- A found element splits the list at the first hit of the predicate. -/
theorem find?_decomp {α : Type} (p : α → Bool) (l : List α) (a : α)
    (h : l.find? p = some a) :
    p a = true ∧ ∃ pre post, l = pre ++ a :: post ∧ ∀ w ∈ pre, p w = false := by
  induction l with
  | nil => simp at h
  | cons x xs ih =>
    rw [List.find?] at h
    cases hp : p x with
    | true =>
      rw [hp] at h
      injection h with h
      subst h
      exact ⟨hp, [], xs, rfl, by simp⟩
    | false =>
      rw [hp] at h
      obtain ⟨hpa, pre, post, rfl, hpre⟩ := ih h
      refine ⟨hpa, x :: pre, post, rfl, ?_⟩
      intro w hw
      rcases List.mem_cons.mp hw with rfl | hw
      · exact hp
      · exact hpre _ hw

/-- When exactly one element satisfies the predicate, find? returns it. -/
theorem find?_unique {α : Type} (p : α → Bool) (l : List α) (a : α)
    (ha : a ∈ l) (hpa : p a = true) (huniq : ∀ w ∈ l, p w = true → w = a) :
    l.find? p = some a := by
  induction l with
  | nil => cases ha
  | cons x xs ih =>
    rw [List.find?]
    cases hp : p x with
    | true =>
      have hx : x = a := huniq x (by simp) hp
      rw [hx]
    | false =>
      have hxa : a ∈ xs := by
        rcases List.mem_cons.mp ha with rfl | ha
        · rw [hpa] at hp; cases hp
        · exact ha
      exact ih hxa fun w hw => huniq w (by simp [hw])

/-! ### C1: aggregate finalization. -/

/-- The aggregate property claimed for the two finalization sites: with
every variant terminal, the media ends done exactly when some variant is
done and failed exactly when none is; with a non-terminal variant left,
the media status is untouched. -/
def AggregateCorrect (m : Media) : Prop :=
  (m.AllVariantsTerminal = true →
    ((finalizeVariantSuccess m).status = MediaStatus.done ↔
        ∃ v ∈ m.variants, v.status = VariantStatus.done) ∧
    ((finalizeVariantSuccess m).status = MediaStatus.failed ↔
        ∀ v ∈ m.variants, v.status ≠ VariantStatus.done) ∧
    ((finalizeVariantFailure m).status = MediaStatus.done ↔
        ∃ v ∈ m.variants, v.status = VariantStatus.done) ∧
    ((finalizeVariantFailure m).status = MediaStatus.failed ↔
        ∀ v ∈ m.variants, v.status ≠ VariantStatus.done)) ∧
  (m.AllVariantsTerminal = false →
    (finalizeVariantSuccess m).status = m.status ∧
    (finalizeVariantFailure m).status = m.status)

/-- C1: for every Media with a non-empty variant list, the worker pool's
finalization after a variant success (worker.go lines 454-471) and after a
variant failure (lines 521-533) sets the media status to done when at
least one variant is done and to failed when none is, once every variant
is terminal; while some variant is non-terminal neither site changes the
media status. -/
theorem aggregate_finalization_correct (m : Media) (hne : m.variants ≠ []) :
    AggregateCorrect m := by
  clear hne
  constructor
  · intro hterm
    rcases hbv : m.BestVariant with _ | best
    · have hnone : ∀ v ∈ m.variants, v.status ≠ VariantStatus.done :=
        (bestVariant_eq_none_iff m).mp hbv
      have hhd : m.HasDoneVariant = false := by
        cases hhd : m.HasDoneVariant with
        | false => rfl
        | true =>
          obtain ⟨v, hv, hvd⟩ := (hasDoneVariant_iff m).mp hhd
          exact absurd hvd (hnone v hv)
      refine ⟨?_, ?_, ?_, ?_⟩ <;>
        simp [finalizeVariantSuccess, finalizeVariantFailure, hterm, hbv, hhd,
          UpdateStatus] <;>
        exact hnone
    · have hdone : best.status = VariantStatus.done := by
        have := List.find?_some hbv
        simpa using this
      have hmem : best ∈ m.variants := List.mem_of_find?_eq_some hbv
      have hex : ∃ v ∈ m.variants, v.status = VariantStatus.done := ⟨best, hmem, hdone⟩
      have hhd : m.HasDoneVariant = true := (hasDoneVariant_iff m).mpr hex
      refine ⟨?_, ?_, ?_, ?_⟩ <;>
        simp [finalizeVariantSuccess, finalizeVariantFailure, hterm, hbv, hhd,
          Media.MarkAsDone, hex]
  · intro hterm
    simp [finalizeVariantSuccess, finalizeVariantFailure, hterm]

/-- Witness for C1 at a media whose single h264 variant is done. -/
theorem aggregate_finalization_correct_witness :
    (mkMedia MediaType.video MediaStatus.processing ""
        [mkVariant 1 "h264" VariantStatus.done]).variants ≠ [] ∧
    AggregateCorrect
      (mkMedia MediaType.video MediaStatus.processing ""
        [mkVariant 1 "h264" VariantStatus.done]) :=
  ⟨by decide,
   aggregate_finalization_correct
     (mkMedia MediaType.video MediaStatus.processing ""
       [mkVariant 1 "h264" VariantStatus.done]) (by decide)⟩

/-! ### C3: BestVariant and codec preference. -/

/-- C3 counterexample: a media whose done variants are exactly an H264 one
and an AV1 one, the H264 row listed first (ListVariantsByMedia orders by
creation time, which follows the requested codec order).  BestVariant
returns the H264 variant, not the AV1 one the claim requires. -/
theorem bestVariant_ignores_codec_preference :
    (mkMedia MediaType.video MediaStatus.processing ""
        [mkVariant 1 "h264" VariantStatus.done,
         mkVariant 2 "av1" VariantStatus.done]).BestVariant =
      some (mkVariant 1 "h264" VariantStatus.done) ∧
    (mkVariant 1 "h264" VariantStatus.done).codec = "h264" ∧
    mkVariant 2 "av1" VariantStatus.done ∈
      (mkMedia MediaType.video MediaStatus.processing ""
        [mkVariant 1 "h264" VariantStatus.done,
         mkVariant 2 "av1" VariantStatus.done]).variants ∧
    (mkVariant 2 "av1" VariantStatus.done).status = VariantStatus.done ∧
    (mkVariant 2 "av1" VariantStatus.done).codec = "av1" ∧
    mkVariant 1 "h264" VariantStatus.done ≠ mkVariant 2 "av1" VariantStatus.done := by
  decide

/-- The amended selection rule: BestVariant returns the first done variant
in the media's stored list order (no codec preference is applied), none
when no variant is done, and in particular the unique done variant when
only one exists — which covers the claim's Opus-only case. -/
def BestVariantFirstDone (m : Media) : Prop :=
  (∀ v, m.BestVariant = some v →
    v.status = VariantStatus.done ∧
    ∃ pre post, m.variants = pre ++ v :: post ∧
      ∀ w ∈ pre, w.status ≠ VariantStatus.done) ∧
  (m.BestVariant = none ↔ ∀ v ∈ m.variants, v.status ≠ VariantStatus.done) ∧
  (∀ v ∈ m.variants, v.status = VariantStatus.done →
    (∀ w ∈ m.variants, w.status = VariantStatus.done → w = v) →
    m.BestVariant = some v)

/-- C3 amended: BestVariant (media.go lines 154-161) returns the first
done variant in list order; with a single done variant (such as the
Opus-only case) it returns that variant, and with done variants
{H264, AV1} it returns whichever is listed first, not necessarily AV1. -/
theorem bestVariant_first_done_in_list_order (m : Media) : BestVariantFirstDone m := by
  refine ⟨?_, bestVariant_eq_none_iff m, ?_⟩
  · intro v hv
    have hv2 : List.find? (fun v => v.status == VariantStatus.done) m.variants = some v := hv
    obtain ⟨hpa, pre, post, heq, hpre⟩ :=
      find?_decomp (fun v => v.status == VariantStatus.done) m.variants v hv2
    refine ⟨by simpa using hpa, pre, post, heq, ?_⟩
    intro w hw
    simpa using hpre w hw
  · intro v hv hvd huniq
    exact find?_unique _ m.variants v hv (by simpa using hvd)
      fun w hw hpw => huniq w hw (by simpa using hpw)

/-- Witness for C3's amended rule at an Opus-only media: the single done
Opus variant is returned. -/
theorem bestVariant_first_done_in_list_order_witness :
    BestVariantFirstDone
      (mkMedia MediaType.audio MediaStatus.processing ""
        [mkVariant 1 "opus" VariantStatus.done]) :=
  bestVariant_first_done_in_list_order
    (mkMedia MediaType.audio MediaStatus.processing ""
      [mkVariant 1 "opus" VariantStatus.done])

/-! ### C2: atomic claim of the oldest pending job. -/

/-- The claim step yields none only when it started from none and the row
is not pending. -/
theorem oldestPendingStep_eq_none (acc : Option Job) (j : Job) :
    oldestPendingStep acc j = none ↔ acc = none ∧ j.status ≠ JobStatus.pending := by
  cases acc with
  | none =>
    simp only [oldestPendingStep]
    split_ifs with hp <;> simp [hp]
  | some k =>
    simp only [oldestPendingStep]
    split_ifs <;> simp

/-- The claim step returns the accumulator or the pending row at hand. -/
theorem oldestPendingStep_some_cases (acc : Option Job) (j k : Job)
    (h : oldestPendingStep acc j = some k) :
    acc = some k ∨ (k = j ∧ j.status = JobStatus.pending) := by
  cases acc with
  | none =>
    simp only [oldestPendingStep] at h
    split_ifs at h with hp
    · injection h with h; exact Or.inr ⟨h.symm, hp⟩
  | some k0 =>
    simp only [oldestPendingStep] at h
    split_ifs at h with hc
    · injection h with h; exact Or.inr ⟨h.symm, hc.1⟩
    · injection h with h; exact Or.inl (by rw [h])

/-- Against a pending row, the claim step's result is at most as recent. -/
theorem oldestPendingStep_le_pending (acc : Option Job) (j k : Job)
    (hp : j.status = JobStatus.pending) (h : oldestPendingStep acc j = some k) :
    k.createdAt ≤ j.createdAt := by
  cases acc with
  | none =>
    simp only [oldestPendingStep, if_pos hp] at h
    injection h with h; rw [← h]
  | some k0 =>
    simp only [oldestPendingStep] at h
    split_ifs at h with hc
    · injection h with h; rw [← h]
    · injection h with h
      rw [← h]
      have hnlt : ¬ j.createdAt < k0.createdAt := fun hlt => hc ⟨hp, hlt⟩
      omega

/-- The claim step never moves to a more recent accumulator. -/
theorem oldestPendingStep_le_acc (acc : Option Job) (j a k : Job)
    (ha : acc = some a) (h : oldestPendingStep acc j = some k) :
    k.createdAt ≤ a.createdAt := by
  subst ha
  simp only [oldestPendingStep] at h
  split_ifs at h with hc
  · injection h with h; rw [← h]; exact le_of_lt hc.2
  · injection h with h; rw [← h]

/-- Combined characterization of the ClaimNextJob subquery fold. -/
theorem oldestPending_aux (jobs : List Job) :
    ∀ acc : Option Job,
      (jobs.foldl oldestPendingStep acc = none ↔
        acc = none ∧ ∀ j ∈ jobs, j.status ≠ JobStatus.pending) ∧
      (∀ k, jobs.foldl oldestPendingStep acc = some k →
        acc = some k ∨ (k ∈ jobs ∧ k.status = JobStatus.pending)) ∧
      (∀ k, jobs.foldl oldestPendingStep acc = some k →
        ∀ p ∈ jobs, p.status = JobStatus.pending → k.createdAt ≤ p.createdAt) ∧
      (∀ a, acc = some a → ∀ k, jobs.foldl oldestPendingStep acc = some k →
        k.createdAt ≤ a.createdAt) := by
  induction jobs with
  | nil =>
    intro acc
    refine ⟨by simp, fun k h => Or.inl h, by simp, ?_⟩
    intro a ha k hk
    rw [ha] at hk
    injection hk with hk
    rw [← hk]
  | cons j js ih =>
    intro acc
    obtain ⟨ih1, ih2, ih3, ih4⟩ := ih (oldestPendingStep acc j)
    refine ⟨?_, ?_, ?_, ?_⟩
    · rw [List.foldl_cons, ih1, oldestPendingStep_eq_none]
      constructor
      · rintro ⟨⟨h1, h2⟩, h3⟩
        refine ⟨h1, ?_⟩
        intro p hp
        rcases List.mem_cons.mp hp with rfl | hp
        · exact h2
        · exact h3 p hp
      · rintro ⟨h1, h2⟩
        exact ⟨⟨h1, h2 j (by simp)⟩, fun p hp => h2 p (by simp [hp])⟩
    · intro k hk
      rw [List.foldl_cons] at hk
      rcases ih2 k hk with hstep | ⟨hmem, hpend⟩
      · rcases oldestPendingStep_some_cases acc j k hstep with hacc | ⟨rfl, hpend⟩
        · exact Or.inl hacc
        · exact Or.inr ⟨by simp, hpend⟩
      · exact Or.inr ⟨by simp [hmem], hpend⟩
    · intro k hk p hp hpend
      rw [List.foldl_cons] at hk
      rcases List.mem_cons.mp hp with rfl | hp
      · rcases hstep : oldestPendingStep acc p with _ | a
        · rw [oldestPendingStep_eq_none] at hstep
          exact absurd hpend hstep.2
        · have h1 : k.createdAt ≤ a.createdAt := ih4 a hstep k hk
          have h2 : a.createdAt ≤ p.createdAt :=
            oldestPendingStep_le_pending acc p a hpend hstep
          omega
      · exact ih3 k hk p hp hpend
    · intro a ha k hk
      rw [List.foldl_cons] at hk
      rcases hstep : oldestPendingStep acc j with _ | b
      · rw [oldestPendingStep_eq_none] at hstep
        rw [ha] at hstep
        cases hstep.1
      · have h1 : k.createdAt ≤ b.createdAt := ih4 b hstep k hk
        have h2 : b.createdAt ≤ a.createdAt :=
          oldestPendingStep_le_acc acc j a b ha hstep
        omega

/-- The subquery finds nothing exactly when no row is pending. -/
theorem oldestPending_none_iff (jobs : List Job) :
    oldestPending jobs = none ↔ ∀ j ∈ jobs, j.status ≠ JobStatus.pending := by
  unfold oldestPending
  rw [(oldestPending_aux jobs none).1]
  simp

/-- The subquery's result is a pending row of minimal creation time. -/
theorem oldestPending_some_spec (jobs : List Job) (k : Job)
    (h : oldestPending jobs = some k) :
    k ∈ jobs ∧ k.status = JobStatus.pending ∧
      ∀ p ∈ jobs, p.status = JobStatus.pending → k.createdAt ≤ p.createdAt := by
  obtain ⟨_, h2, h3, _⟩ := oldestPending_aux jobs none
  rcases h2 k h with hacc | ⟨hmem, hpend⟩
  · cases hacc
  · exact ⟨hmem, hpend, h3 k h⟩

/-- What C2 claims of Claim: with no pending row the queue returns none
and the table is untouched; otherwise some pending row with minimal
creation time is returned updated to running with its start time stamped
and attempts incremented, that row's table entry is rewritten the same
way, and rows with other ids keep their entries. -/
def ClaimCorrect (now : Int) (jobs : List Job) : Prop :=
  ((∀ j ∈ jobs, j.status ≠ JobStatus.pending) → ClaimNextJob now jobs = (none, jobs)) ∧
  ((∃ j ∈ jobs, j.status = JobStatus.pending) →
    ∃ k ∈ jobs, k.status = JobStatus.pending ∧
      (∀ p ∈ jobs, p.status = JobStatus.pending → k.createdAt ≤ p.createdAt) ∧
      (ClaimNextJob now jobs).1 =
        some { k with status := JobStatus.running, startedAt := some now,
                      attempts := k.attempts + 1 } ∧
      (ClaimNextJob now jobs).2 =
        jobs.map fun p =>
          if p.id = k.id then
            { p with status := JobStatus.running, startedAt := some now,
                     attempts := p.attempts + 1 }
          else p)

/-- C2: ClaimNextJob (jobs queries lines 43-54, wrapped by JobQueue.Claim)
atomically selects a pending job of oldest creation time, marks it
running with its start time stamped and attempt count incremented,
returns the updated row, and rewrites only that row's table entry; with
no pending job it returns none (nil job, nil error) and changes
nothing. -/
theorem claim_selects_oldest_pending (now : Int) (jobs : List Job) :
    ClaimCorrect now jobs := by
  constructor
  · intro hnone
    have h : oldestPending jobs = none := (oldestPending_none_iff jobs).mpr hnone
    simp [ClaimNextJob, h]
  · rintro ⟨j, hj, hpend⟩
    rcases hop : oldestPending jobs with _ | k
    · exact absurd hpend ((oldestPending_none_iff jobs).mp hop j hj)
    · obtain ⟨hmem, hkpend, hmin⟩ := oldestPending_some_spec jobs k hop
      exact ⟨k, hmem, hkpend, hmin, by simp [ClaimNextJob, hop], by simp [ClaimNextJob, hop]⟩

/-- Witness for C2 at a table holding one older done job and two pending
jobs: the older pending one (id 2) is selected. -/
theorem claim_selects_oldest_pending_witness :
    ClaimCorrect 9
      [{ id := 1, mediaId := "m1", type := JobType.convert, codec := "av1", fps := 0,
         status := JobStatus.done, errorMessage := "", attempts := 1, createdAt := 0,
         startedAt := some 1, completedAt := some 2 },
       { id := 2, mediaId := "m2", type := JobType.convert, codec := "h264", fps := 0,
         status := JobStatus.pending, errorMessage := "", attempts := 0, createdAt := 3,
         startedAt := none, completedAt := none },
       { id := 3, mediaId := "m3", type := JobType.convert, codec := "h264", fps := 0,
         status := JobStatus.pending, errorMessage := "", attempts := 0, createdAt := 5,
         startedAt := none, completedAt := none }] :=
  claim_selects_oldest_pending 9 _

/-! ### C5: stalled-job recovery. -/

/-- The recovery property: ResetStalledJobs keeps the table length, turns
every running row into a pending row with started_at cleared (pending
being the claim-eligibility predicate of ClaimNextJob), leaves rows in
any other status untouched, and whenever some row was running a
subsequent Claim finds a job to return. -/
def ResetStalledCorrect (jobs : List Job) : Prop :=
  (ResetStalledJobs jobs).length = jobs.length ∧
  (∀ i (h : i < jobs.length) (h2 : i < (ResetStalledJobs jobs).length),
    ((jobs.get ⟨i, h⟩).status = JobStatus.running →
      (ResetStalledJobs jobs).get ⟨i, h2⟩ =
        { jobs.get ⟨i, h⟩ with status := JobStatus.pending, startedAt := none }) ∧
    ((jobs.get ⟨i, h⟩).status ≠ JobStatus.running →
      (ResetStalledJobs jobs).get ⟨i, h2⟩ = jobs.get ⟨i, h⟩)) ∧
  ((∃ j ∈ jobs, j.status = JobStatus.running) →
    ∀ now, (ClaimNextJob now (ResetStalledJobs jobs)).1 ≠ none)

/-- C5: after ResetStalledJobs (jobs queries lines 69-73, wrapped by
JobQueue.ResetStalled), every job that was running is pending with its
start time cleared and is eligible for a new claim; jobs in any other
status are unchanged. -/
theorem resetStalled_repends_running_jobs (jobs : List Job) : ResetStalledCorrect jobs := by
  refine ⟨by simp [ResetStalledJobs], ?_, ?_⟩
  · intro i h h2
    simp only [List.get_eq_getElem]
    constructor
    · intro hrun
      simp [ResetStalledJobs, List.getElem_map, hrun]
    · intro hrun
      simp [ResetStalledJobs, List.getElem_map, hrun]
  · rintro ⟨j, hj, hrun⟩ now
    have hpend : { j with status := JobStatus.pending, startedAt := none } ∈
        ResetStalledJobs jobs := by
      simp only [ResetStalledJobs, List.mem_map]
      exact ⟨j, hj, by simp [hrun]⟩
    intro hnone
    rw [ClaimNextJob] at hnone
    rcases hop : oldestPending (ResetStalledJobs jobs) with _ | k
    · have : ∀ p ∈ ResetStalledJobs jobs, p.status ≠ JobStatus.pending := by
        intro p hp
        exact (oldestPending_none_iff (ResetStalledJobs jobs)).mp hop p hp
      exact this _ hpend rfl
    · rw [hop] at hnone
      simp at hnone

/-- Witness for C5 at a two-row table with one running and one done job. -/
theorem resetStalled_repends_running_jobs_witness :
    ResetStalledCorrect
      [{ id := 1, mediaId := "m1", type := JobType.convert, codec := "av1", fps := 0,
         status := JobStatus.running, errorMessage := "", attempts := 1, createdAt := 0,
         startedAt := some 3, completedAt := none },
       { id := 2, mediaId := "m1", type := JobType.convert, codec := "h264", fps := 0,
         status := JobStatus.done, errorMessage := "", attempts := 1, createdAt := 1,
         startedAt := some 4, completedAt := some 9 }] :=
  resetStalled_repends_running_jobs _

/-! ### C6: dispatch failure of a codec-carrying convert job. -/

/-- A freshly claimed convert job for h264: ClaimNextJob returns the row
as inserted by Enqueue, whose error_message column defaults to the empty
string, so the in-memory struct carries errorMessage = "". -/
def jobClaimedH264 : Job :=
  { id := 1, mediaId := "m1", type := JobType.convert, codec := "h264", fps := 0,
    status := JobStatus.running, errorMessage := "", attempts := 1, createdAt := 0,
    startedAt := some 1, completedAt := none }

/-- C6: evaluating the dispatch-error path at a freshly claimed h264
convert job whose conversion fails with message "convert h264: boom".
FailJob records that message on the job row, but failVariant writes
job.ErrorMessage — the stale in-memory field, still empty — into the
variant row, so the variant ends failed with an empty error message and
the dispatch message appears nowhere in the variant table, contradicting
the claim (and spec), which require the same message on the variant. -/
theorem convert_failure_variant_message_empty :
    (∃ j ∈ (processJobError [jobClaimedH264]
        (mkMedia MediaType.video MediaStatus.processing ""
          [mkVariant 7 "h264" VariantStatus.processing])
        jobClaimedH264 "convert h264: boom" 5).1,
      j.id = 1 ∧ j.status = JobStatus.failed ∧ j.errorMessage = "convert h264: boom") ∧
    (∃ v ∈ (processJobError [jobClaimedH264]
        (mkMedia MediaType.video MediaStatus.processing ""
          [mkVariant 7 "h264" VariantStatus.processing])
        jobClaimedH264 "convert h264: boom" 5).2.variants,
      v.codec = "h264" ∧ v.status = VariantStatus.failed ∧ v.errorMessage = "") ∧
    (∀ v ∈ (processJobError [jobClaimedH264]
        (mkMedia MediaType.video MediaStatus.processing ""
          [mkVariant 7 "h264" VariantStatus.processing])
        jobClaimedH264 "convert h264: boom" 5).2.variants,
      v.errorMessage ≠ "convert h264: boom") := by
  decide

/-! ### C7: thumbnail attachment on the first successful video variant. -/

/-- C7: evaluating the success path of handleVariantConvert at a video
media with no thumbnail and a single h264 variant, where conversion,
probe and thumbnail generation all succeed.  The media is finalized done,
yet its ThumbPath is empty: the path generated at worker.go line 445 is
assigned only to the local media variable, which the store re-fetch at
line 449 discards, and UpdateDone then persists the re-fetched empty
thumb_path.  The claim (and the spec's end-to-end scenario) require a
non-empty ThumbPath after finalization. -/
theorem thumbnail_path_lost_on_refetch :
    (handleVariantConvertSuccess
        (mkMedia MediaType.video MediaStatus.processing ""
          [mkVariant 7 "h264" VariantStatus.processing])
        jobClaimedH264 "m1_h264.mp4" true 640 480 "rawprobe" 1000 true).status =
      MediaStatus.done ∧
    (handleVariantConvertSuccess
        (mkMedia MediaType.video MediaStatus.processing ""
          [mkVariant 7 "h264" VariantStatus.processing])
        jobClaimedH264 "m1_h264.mp4" true 640 480 "rawprobe" 1000 true).thumbPath = "" ∧
    (∃ v ∈ (handleVariantConvertSuccess
        (mkMedia MediaType.video MediaStatus.processing ""
          [mkVariant 7 "h264" VariantStatus.processing])
        jobClaimedH264 "m1_h264.mp4" true 640 480 "rawprobe" 1000 true).variants,
      v.codec = "h264" ∧ v.status = VariantStatus.done ∧ v.path = "m1_h264.mp4") := by
  decide

/-! ### C9: best-effort event delivery. -/

/-- What C9 claims of Publish: channels under other media ids are exactly
as before; under the published id the subscriber list keeps its length and
each channel either receives the event appended (when its buffer has free
space) or is left unchanged (when full).  Publish is a total function, so
it cannot block or fail. -/
def PublishCorrect (bus : Bus) (mediaId : String) (e : Event) : Prop :=
  (∀ otherId, otherId ≠ mediaId → Publish bus mediaId e otherId = bus otherId) ∧
  ((Publish bus mediaId e) mediaId).length = (bus mediaId).length ∧
  (∀ i (h : i < (bus mediaId).length) (h2 : i < ((Publish bus mediaId e) mediaId).length),
    (((bus mediaId).get ⟨i, h⟩).buf.length < ((bus mediaId).get ⟨i, h⟩).cap →
      ((Publish bus mediaId e) mediaId).get ⟨i, h2⟩ =
        { (bus mediaId).get ⟨i, h⟩ with buf := ((bus mediaId).get ⟨i, h⟩).buf ++ [e] }) ∧
    (¬ ((bus mediaId).get ⟨i, h⟩).buf.length < ((bus mediaId).get ⟨i, h⟩).cap →
      ((Publish bus mediaId e) mediaId).get ⟨i, h2⟩ = (bus mediaId).get ⟨i, h⟩))

/-- C9: Publish (events.go lines 45-56) delivers the event to each channel
subscribed to the media id with buffer space free, drops it for each full
channel, and leaves channels of other media ids unchanged. -/
theorem publish_best_effort_delivery (bus : Bus) (mediaId : String) (e : Event) :
    PublishCorrect bus mediaId e := by
  refine ⟨?_, ?_, ?_⟩
  · intro otherId hne
    simp [Publish, hne]
  · simp [Publish]
  · intro i h h2
    simp only [List.get_eq_getElem]
    constructor
    · intro hfree
      simp [Publish, List.getElem_map, trySend, hfree]
    · intro hfree
      simp [Publish, List.getElem_map, trySend, hfree]

/-- A subscriber channel whose 16-slot buffer is full. -/
def fullChannel : Channel :=
  { buf := List.replicate 16 { type := "status", status := "processing", message := "" },
    cap := 16 }

/-- A two-subscriber bus on media id m1 (one fresh channel, one full). -/
def sampleBus : Bus :=
  fun idd => if idd = "m1" then [{ buf := [], cap := 16 }, fullChannel] else []

/-- Witness for C9 at the sample bus: one subscriber has space, one is
full, and a channel subscribed to a different id exists implicitly (every
other id maps to no channels, which Publish leaves unchanged). -/
theorem publish_best_effort_delivery_witness :
    PublishCorrect sampleBus "m1" { type := "status", status := "done", message := "" } :=
  publish_best_effort_delivery sampleBus "m1"
    { type := "status", status := "done", message := "" }

/-! ### C10: forced H264 variant for video uploads. -/

/-- What C10 claims of Upload's codec handling for a video with a
non-empty requested list lacking h264: the persisted effects are exactly a
pending variant row plus a convert job per requested codec, in order,
followed by the same pair for the appended h264. -/
def UploadAppendsH264 (codecs : List String) : Prop :=
  uploadActions MediaType.video codecs =
    (codecs ++ ["h264"]).flatMap
      (fun c => [PlanAct.saveVariant c, PlanAct.enqueueJob JobType.convert c]) ∧
  PlanAct.saveVariant "h264" ∈ uploadActions MediaType.video codecs ∧
  PlanAct.enqueueJob JobType.convert "h264" ∈ uploadActions MediaType.video codecs ∧
  ∀ c ∈ codecs,
    PlanAct.saveVariant c ∈ uploadActions MediaType.video codecs ∧
    PlanAct.enqueueJob JobType.convert c ∈ uploadActions MediaType.video codecs

/-- C10: for a video upload whose non-empty requested codec list lacks
h264, Upload (service media.go lines 97-100 and 122-137) appends h264, so
a pending h264 variant row is saved (InsertVariant defaults status to
pending) and an h264 convert job is enqueued in addition to those of the
requested codecs. -/
theorem upload_appends_h264_for_video (codecs : List String)
    (hne : codecs ≠ []) (hh : "h264" ∉ codecs) : UploadAppendsH264 codecs := by
  have hcontains : codecs.contains "h264" = false := by
    simpa using hh
  have heff : uploadActions MediaType.video codecs =
      (codecs ++ ["h264"]).flatMap
        (fun c => [PlanAct.saveVariant c, PlanAct.enqueueJob JobType.convert c]) := by
    simp [uploadActions, hcontains, hh]
  refine ⟨heff, ?_, ?_, ?_⟩
  · rw [heff]
    exact List.mem_flatMap.mpr ⟨"h264", by simp, by simp⟩
  · rw [heff]
    exact List.mem_flatMap.mpr ⟨"h264", by simp, by simp⟩
  · intro c hc
    rw [heff]
    exact ⟨List.mem_flatMap.mpr ⟨c, by simp [hc], by simp⟩,
           List.mem_flatMap.mpr ⟨c, by simp [hc], by simp⟩⟩

/-- Witness for C10 at the requested list [av1]. -/
theorem upload_appends_h264_for_video_witness : UploadAppendsH264 ["av1"] :=
  upload_appends_h264_for_video ["av1"] (by decide) (by decide)

/-! ### C8: variant status monotonicity. -/

/-- C8 counterexample: the code permits a run in which a done variant is
set back to processing.  Execute the convert job through UpdateVariantDone,
crash before Complete (the job row stays running), restart (ResetStalled
re-pends it), re-claim, and re-enter handleVariantConvert: its first store
write (line 402) sets the already-done variant back to processing.  The
two exhibited states are the results of running that action list from the
initial state. -/
theorem variant_status_reverts_after_crash_recovery :
    ∃ s1 s2 : WState,
      wrun [WAct.claimJob, WAct.startVariant, WAct.convertOk, WAct.crash,
            WAct.resetStalled, WAct.claimJob] winit = some s1 ∧
      wstep WAct.startVariant s1 = some s2 ∧
      s1.varStatus = VariantStatus.done ∧
      s2.varStatus = VariantStatus.processing ∧
      VariantStatus.isTerminal s1.varStatus = true ∧
      varRank s2.varStatus < varRank s1.varStatus :=
  ⟨{ jobStatus := JobStatus.running, attempts := 2,
     varStatus := VariantStatus.done, worker := some WStage.claimed },
   { jobStatus := JobStatus.running, attempts := 2,
     varStatus := VariantStatus.processing, worker := some WStage.varProcessing },
   by decide, by decide, rfl, rfl, rfl, by decide⟩

/-- Reachability invariant of crash-free runs, indexed by the worker
stage: the stage determines the job and variant statuses. -/
def WInvAt : Option WStage → JobStatus → VariantStatus → Prop
  | none, j, v =>
    (j = JobStatus.pending ∧ v = VariantStatus.pending) ∨
    (j = JobStatus.done ∧ v = VariantStatus.done) ∨
    (j = JobStatus.failed ∧ v = VariantStatus.failed)
  | some WStage.claimed, j, v =>
    j = JobStatus.running ∧ v = VariantStatus.pending
  | some WStage.varProcessing, j, v =>
    j = JobStatus.running ∧ v = VariantStatus.processing
  | some WStage.varDone, j, v =>
    j = JobStatus.running ∧ v = VariantStatus.done
  | some WStage.erred, j, v =>
    j = JobStatus.running ∧ v = VariantStatus.processing
  | some WStage.jobFailed, j, v =>
    j = JobStatus.failed ∧ v = VariantStatus.processing

/-- Reachability invariant of crash-free runs. -/
def WInv (s : WState) : Prop :=
  WInvAt s.worker s.jobStatus s.varStatus

/-- One crash-free step preserves the invariant, never lowers the variant
rank, and never changes a terminal variant status. -/
theorem winv_step (a : WAct) (s s' : WState) (hinv : WInv s) (hna : a ≠ WAct.crash)
    (hstep : wstep a s = some s') :
    WInv s' ∧ varRank s.varStatus ≤ varRank s'.varStatus ∧
      (VariantStatus.isTerminal s.varStatus = true → s'.varStatus = s.varStatus) := by
  have hinv2 : WInvAt s.worker s.jobStatus s.varStatus := hinv
  cases a with
  | crash => exact absurd rfl hna
  | claimJob =>
    simp only [wstep] at hstep
    split_ifs at hstep with hc
    injection hstep with hstep
    subst hstep
    obtain ⟨hjp, hwn⟩ := hc
    rw [hwn] at hinv2
    rcases hinv2 with ⟨_, hv⟩ | ⟨hj, _⟩ | ⟨hj, _⟩
    · exact ⟨⟨rfl, hv⟩, le_refl _, fun _ => rfl⟩
    · rw [hjp] at hj; cases hj
    · rw [hjp] at hj; cases hj
  | startVariant =>
    simp only [wstep] at hstep
    split_ifs at hstep with hc
    injection hstep with hstep
    subst hstep
    rw [hc] at hinv2
    obtain ⟨hj, hv⟩ := hinv2
    refine ⟨⟨hj, rfl⟩, ?_, ?_⟩
    · rw [hv]
      show varRank VariantStatus.pending ≤ varRank VariantStatus.processing
      decide
    · intro ht; rw [hv] at ht; cases ht
  | convertOk =>
    simp only [wstep] at hstep
    split_ifs at hstep with hc
    injection hstep with hstep
    subst hstep
    rw [hc] at hinv2
    obtain ⟨hj, hv⟩ := hinv2
    refine ⟨⟨hj, rfl⟩, ?_, ?_⟩
    · rw [hv]
      show varRank VariantStatus.processing ≤ varRank VariantStatus.done
      decide
    · intro ht; rw [hv] at ht; cases ht
  | convertErr =>
    simp only [wstep] at hstep
    split_ifs at hstep with hc
    injection hstep with hstep
    subst hstep
    rw [hc] at hinv2
    obtain ⟨hj, hv⟩ := hinv2
    exact ⟨⟨hj, hv⟩, le_refl _, fun _ => rfl⟩
  | failJobAct =>
    simp only [wstep] at hstep
    split_ifs at hstep with hc
    injection hstep with hstep
    subst hstep
    rw [hc] at hinv2
    obtain ⟨hj, hv⟩ := hinv2
    exact ⟨⟨rfl, hv⟩, le_refl _, fun _ => rfl⟩
  | failVarAct =>
    simp only [wstep] at hstep
    split_ifs at hstep with hc
    injection hstep with hstep
    subst hstep
    rw [hc] at hinv2
    obtain ⟨hj, hv⟩ := hinv2
    refine ⟨Or.inr (Or.inr ⟨hj, rfl⟩), ?_, ?_⟩
    · rw [hv]
      show varRank VariantStatus.processing ≤ varRank VariantStatus.failed
      decide
    · intro ht; rw [hv] at ht; cases ht
  | completeAct =>
    simp only [wstep] at hstep
    split_ifs at hstep with hc
    injection hstep with hstep
    subst hstep
    rw [hc] at hinv2
    obtain ⟨hj, hv⟩ := hinv2
    exact ⟨Or.inr (Or.inl ⟨rfl, hv⟩), le_refl _, fun _ => rfl⟩
  | resetStalled =>
    simp only [wstep] at hstep
    split_ifs at hstep with hc
    injection hstep with hstep
    subst hstep
    obtain ⟨hjr, hwn⟩ := hc
    rw [hwn] at hinv2
    rcases hinv2 with ⟨hj, _⟩ | ⟨hj, _⟩ | ⟨hj, _⟩ <;> (rw [hjr] at hj; cases hj)

/-- A crash-free run preserves the invariant and the two monotonicity
facts. -/
theorem winv_run (acts : List WAct) (s s' : WState) (hinv : WInv s)
    (hna : ∀ a ∈ acts, a ≠ WAct.crash) (hrun : wrun acts s = some s') :
    WInv s' ∧ varRank s.varStatus ≤ varRank s'.varStatus ∧
      (VariantStatus.isTerminal s.varStatus = true → s'.varStatus = s.varStatus) := by
  induction acts generalizing s with
  | nil =>
    simp only [wrun] at hrun
    injection hrun with hrun
    subst hrun
    exact ⟨hinv, le_refl _, fun _ => rfl⟩
  | cons a rest ih =>
    simp only [wrun] at hrun
    rcases hstep : wstep a s with _ | s1
    · rw [hstep] at hrun; cases hrun
    · rw [hstep] at hrun
      obtain ⟨hinv1, hle1, hterm1⟩ :=
        winv_step a s s1 hinv (hna a (by simp)) hstep
      obtain ⟨hinv2, hle2, hterm2⟩ :=
        ih s1 hinv1 (fun b hb => hna b (by simp [hb])) hrun
      refine ⟨hinv2, le_trans hle1 hle2, ?_⟩
      intro ht
      have h1 : s1.varStatus = s.varStatus := hterm1 ht
      have h2 : s1.varStatus = s'.varStatus := by
        have := hterm2 (by rw [h1]; exact ht)
        exact this.symm
      rw [← h2, h1]

/-- The amended C8 property: between any two points of a run from the
initial state in which no crash occurs (so each job is executed at most
once and ResetStalled never fires), the variant status never moves back
in the order pending, processing, done, failed, and once terminal it
never changes. -/
def VariantMonotoneNoCrash (acts1 acts2 : List WAct) (s1 s2 : WState) : Prop :=
  wrun acts1 winit = some s1 → wrun acts2 s1 = some s2 →
  (∀ a ∈ acts1, a ≠ WAct.crash) → (∀ a ∈ acts2, a ≠ WAct.crash) →
  varRank s1.varStatus ≤ varRank s2.varStatus ∧
    (VariantStatus.isTerminal s1.varStatus = true → s2.varStatus = s1.varStatus)

/-- C8 amended: in every crash-free run of the worker-pool actions for a
convert job from the initial state, the variant's status is monotone in
the lifecycle order and immutable once terminal; the unrestricted claim
fails because a crash between UpdateVariantDone and Complete lets the
re-claimed job set a done variant back to processing. -/
theorem variant_status_monotone_without_crash (acts1 acts2 : List WAct)
    (s1 s2 : WState) : VariantMonotoneNoCrash acts1 acts2 s1 s2 := by
  intro h1 h2 hna1 hna2
  have hinv0 : WInv winit := Or.inl ⟨rfl, rfl⟩
  obtain ⟨hinv1, _, _⟩ := winv_run acts1 winit s1 hinv0 hna1 h1
  obtain ⟨_, hle, hterm⟩ := winv_run acts2 s1 s2 hinv1 hna2 h2
  exact ⟨hle, hterm⟩

/-- Witness for C8's amended property on a crash-free successful run:
claim and start, then convert and complete. -/
theorem variant_status_monotone_without_crash_witness :
    VariantMonotoneNoCrash [WAct.claimJob, WAct.startVariant]
      [WAct.convertOk, WAct.completeAct]
      { jobStatus := JobStatus.running, attempts := 1,
        varStatus := VariantStatus.processing, worker := some WStage.varProcessing }
      { jobStatus := JobStatus.done, attempts := 1,
        varStatus := VariantStatus.done, worker := none } :=
  variant_status_monotone_without_crash _ _ _ _

/-! ### C4: content-negotiated variant selection. -/

/-- The claim's matching rule, written from the spec's words: an accept
entry matches a MIME type by exact equality, by the full wildcard, or by a
type/* prefix wildcard. -/
def entryMatches (e : AcceptEntry) (mime : String) : Prop :=
  e.mime = "*/*" ∨ e.mime = mime ∨
    (List.isSuffixOf ['/', '*'] e.mime.toList = true ∧
     List.isPrefixOf e.mime.toList.dropLast mime.toList = true)

/-- The rating the loop assigns a variant: the best matching q of its
codec's MIME type, the sentinel -1 when the codec has no MIME. -/
def rateOf (entries : List AcceptEntry) (v : Variant) : ℚ :=
  match codecMIME v.codec with
  | some mime => bestQFor entries mime
  | none => -1

/-- A variant the negotiation can return: a done variant of the media
whose rating is non-negative. -/
def eligible (m : Media) (entries : List AcceptEntry) (v : Variant) : Prop :=
  v ∈ m.variants ∧ v.status = VariantStatus.done ∧ 0 ≤ rateOf entries v

/-- One bestQ iteration never lowers the accumulator. -/
theorem bestQStep_le (mime : String) (b : ℚ) (e : AcceptEntry) :
    b ≤ bestQStep mime b e := by
  unfold bestQStep bestQStep2
  split_ifs with h1 h2 h3
  · linarith [h1.2]
  · linarith [h1.2]
  · linarith [h3.2.2]
  · exact le_refl b

/-- A matching entry's q never exceeds the iteration's result. -/
theorem bestQStep_matched_le (mime : String) (b : ℚ) (e : AcceptEntry)
    (h : entryMatches e mime) : e.q ≤ bestQStep mime b e := by
  unfold bestQStep bestQStep2
  split_ifs with h1 h2 h3
  · exact le_refl _
  · exact le_refl _
  · exact le_refl _
  · rcases h with h | h | ⟨hs, hp⟩
    · by_contra hlt
      push_neg at hlt
      exact h1 ⟨Or.inl h, hlt⟩
    · by_contra hlt
      push_neg at hlt
      exact h1 ⟨Or.inr h, hlt⟩
    · by_contra hlt
      push_neg at hlt
      exact h3 ⟨hs, hp, hlt⟩

/-- An iteration keeps the accumulator or takes a matching entry's q. -/
theorem bestQStep_cases (mime : String) (b : ℚ) (e : AcceptEntry) :
    bestQStep mime b e = b ∨ (entryMatches e mime ∧ bestQStep mime b e = e.q) := by
  unfold bestQStep bestQStep2
  split_ifs with h1 h2 h3
  · refine Or.inr ⟨?_, rfl⟩
    rcases h1.1 with h | h
    · exact Or.inl h
    · exact Or.inr (Or.inl h)
  · refine Or.inr ⟨?_, rfl⟩
    rcases h1.1 with h | h
    · exact Or.inl h
    · exact Or.inr (Or.inl h)
  · exact Or.inr ⟨Or.inr (Or.inr ⟨h3.1, h3.2.1⟩), rfl⟩
  · exact Or.inl rfl

/-- The fold never lowers its start value. -/
theorem foldQ_init_le (entries : List AcceptEntry) (mime : String) :
    ∀ b : ℚ, b ≤ entries.foldl (bestQStep mime) b := by
  induction entries with
  | nil => intro b; simp
  | cons e es ih =>
    intro b
    calc b ≤ bestQStep mime b e := bestQStep_le mime b e
    _ ≤ es.foldl (bestQStep mime) (bestQStep mime b e) := ih _

/-- Every matching entry's q bounds the fold's result from below. -/
theorem foldQ_matched_le (entries : List AcceptEntry) (mime : String) (e : AcceptEntry)
    (he : e ∈ entries) (hm : entryMatches e mime) :
    ∀ b : ℚ, e.q ≤ entries.foldl (bestQStep mime) b := by
  induction entries with
  | nil => cases he
  | cons y ys ih =>
    intro b
    rcases List.mem_cons.mp he with rfl | he2
    · calc e.q ≤ bestQStep mime b e := bestQStep_matched_le mime b e hm
      _ ≤ ys.foldl (bestQStep mime) _ := foldQ_init_le ys mime _
    · exact ih he2 _

/-- The fold keeps its start value or attains a matching entry's q. -/
theorem foldQ_cases (entries : List AcceptEntry) (mime : String) :
    ∀ b : ℚ, entries.foldl (bestQStep mime) b = b ∨
      ∃ e ∈ entries, entryMatches e mime ∧ entries.foldl (bestQStep mime) b = e.q := by
  induction entries with
  | nil => intro b; exact Or.inl rfl
  | cons y ys ih =>
    intro b
    rw [List.foldl_cons]
    rcases ih (bestQStep mime b y) with h | ⟨e, he, hm, hq⟩
    · rw [h]
      rcases bestQStep_cases mime b y with h2 | ⟨hm, h2⟩
      · exact Or.inl h2
      · exact Or.inr ⟨y, by simp, hm, h2⟩
    · exact Or.inr ⟨e, by simp [he], hm, hq⟩

/-- The claim's rating rule: bestQFor is bounded below by -1, dominates
the q of every matching entry, and is either the untouched sentinel or the
q of some matching entry — that is, the highest q among matching
entries. -/
def RatesByHighestMatchingQ (entries : List AcceptEntry) : Prop :=
  ∀ mime : String,
    -1 ≤ bestQFor entries mime ∧
    (∀ e ∈ entries, entryMatches e mime → e.q ≤ bestQFor entries mime) ∧
    (bestQFor entries mime = -1 ∨
      ∃ e ∈ entries, entryMatches e mime ∧ bestQFor entries mime = e.q)

theorem bestQFor_spec (entries : List AcceptEntry) : RatesByHighestMatchingQ entries := by
  intro mime
  exact ⟨foldQ_init_le entries mime (-1),
    fun e he hm => foldQ_matched_le entries mime e he hm (-1),
    foldQ_cases entries mime (-1)⟩

/-- The strict replacement order of the selection loop. -/
def betterThan (x r : AcceptCandidate) : Prop :=
  r.q < x.q ∨ (x.q = r.q ∧ x.prio < r.prio)

theorem betterThan_irrefl (x : AcceptCandidate) : ¬ betterThan x x := by
  unfold betterThan
  rintro (h | ⟨_, h⟩)
  · exact lt_irrefl _ h
  · exact Nat.lt_irrefl _ h

theorem betterThan_asymm (x y : AcceptCandidate) (h : betterThan x y) :
    ¬ betterThan y x := by
  unfold betterThan at h ⊢
  rintro (h2 | ⟨he2, hp2⟩) <;> rcases h with h1 | ⟨he1, hp1⟩
  · linarith
  · linarith [he1.ge, he1.le]
  · linarith [he2.ge, he2.le]
  · omega

theorem notBetter_iff (x r : AcceptCandidate) :
    ¬ betterThan x r ↔ x.q ≤ r.q ∧ (x.q = r.q → r.prio ≤ x.prio) := by
  unfold betterThan
  constructor
  · intro h
    constructor
    · by_contra hlt
      push_neg at hlt
      exact h (Or.inl hlt)
    · intro he
      by_contra hlt
      push_neg at hlt
      exact h (Or.inr ⟨he, hlt⟩)
  · rintro ⟨hle, himp⟩ (h | ⟨he, hp⟩)
    · linarith
    · have := himp he
      omega

theorem notBetter_trans (d m r : AcceptCandidate)
    (h1 : ¬ betterThan d m) (h2 : ¬ betterThan m r) : ¬ betterThan d r := by
  rw [notBetter_iff] at h1 h2 ⊢
  obtain ⟨hq1, hp1⟩ := h1
  obtain ⟨hq2, hp2⟩ := h2
  constructor
  · linarith
  · intro he
    have hdm : d.q = m.q := le_antisymm (by linarith) (by linarith)
    have hmr : m.q = r.q := le_antisymm hq2 (by rw [← he, ← hdm])
    have := hp1 hdm
    have := hp2 hmr
    omega

/-- The pickBetter step keeps one of its two arguments. -/
theorem pickBetter_cases (c y : AcceptCandidate) :
    pickBetter c y = c ∨ pickBetter c y = y := by
  unfold pickBetter
  split_ifs
  · exact Or.inr rfl
  · exact Or.inl rfl

/-- Neither argument beats the pickBetter winner. -/
theorem pickBetter_not_beaten (c y : AcceptCandidate) :
    ¬ betterThan c (pickBetter c y) ∧ ¬ betterThan y (pickBetter c y) := by
  unfold pickBetter
  split_ifs with h
  · exact ⟨betterThan_asymm y c h, betterThan_irrefl y⟩
  · exact ⟨betterThan_irrefl c, h⟩

/-- The selection fold returns an element of its input that no input
element beats. -/
theorem pickBetter_fold_spec (cs : List AcceptCandidate) :
    ∀ c : AcceptCandidate,
      (cs.foldl pickBetter c = c ∨ cs.foldl pickBetter c ∈ cs) ∧
      ∀ x, (x = c ∨ x ∈ cs) → ¬ betterThan x (cs.foldl pickBetter c) := by
  induction cs with
  | nil =>
    intro c
    refine ⟨Or.inl rfl, ?_⟩
    rintro x (rfl | hx)
    · exact betterThan_irrefl x
    · cases hx
  | cons y ys ih =>
    intro c
    obtain ⟨ihmem, ihmax⟩ := ih (pickBetter c y)
    rw [List.foldl_cons]
    constructor
    · rcases ihmem with he | hm
      · rw [he]
        rcases pickBetter_cases c y with h | h
        · exact Or.inl h
        · exact Or.inr (by rw [h]; simp)
      · exact Or.inr (by simp [hm])
    · rintro x (rfl | hx)
      · exact notBetter_trans x (pickBetter x y) _
          (pickBetter_not_beaten x y).1 (ihmax _ (Or.inl rfl))
      · rcases List.mem_cons.mp hx with rfl | hx2
        · exact notBetter_trans x (pickBetter c x) _
            (pickBetter_not_beaten c x).2 (ihmax _ (Or.inl rfl))
        · exact ihmax x (Or.inr hx2)

/-- Membership in the candidate list, unfolded. -/
theorem acceptCandidates_mem (m : Media) (entries : List AcceptEntry) (c : AcceptCandidate) :
    c ∈ acceptCandidates m entries ↔
      ∃ v ∈ m.variants, v.status = VariantStatus.done ∧
        ∃ mime, codecMIME v.codec = some mime ∧ 0 ≤ bestQFor entries mime ∧
          c = ⟨v, bestQFor entries mime, codecPriority v.codec⟩ := by
  unfold acceptCandidates
  rw [List.mem_filterMap]
  constructor
  · rintro ⟨v, hv, hf⟩
    refine ⟨v, hv, ?_⟩
    split_ifs at hf with hs
    · split at hf
      next mime hmime =>
        split_ifs at hf with hq
        injection hf with hf
        exact ⟨hs, mime, hmime, hq, hf.symm⟩
      next hmime => cases hf
  · rintro ⟨v, hv, hs, mime, hmime, hq, rfl⟩
    refine ⟨v, hv, ?_⟩
    rw [if_pos hs, hmime]
    simp [hq]

/-- The rating of a variant with a known MIME. -/
theorem rateOf_eq (entries : List AcceptEntry) (v : Variant) (mime : String)
    (h : codecMIME v.codec = some mime) : rateOf entries v = bestQFor entries mime := by
  unfold rateOf
  rw [h]

/-- An eligible variant's codec has a MIME type. -/
theorem eligible_codecMIME_some (m : Media) (entries : List AcceptEntry) (v : Variant)
    (h : eligible m entries v) : ∃ mime, codecMIME v.codec = some mime := by
  obtain ⟨_, _, hq⟩ := h
  rcases hmime : codecMIME v.codec with _ | mime
  · unfold rateOf at hq
    rw [hmime] at hq
    norm_num at hq
  · exact ⟨mime, rfl⟩

/-- An eligible variant contributes its canonical candidate. -/
theorem eligible_mk_mem (m : Media) (entries : List AcceptEntry) (v : Variant)
    (h : eligible m entries v) :
    (⟨v, rateOf entries v, codecPriority v.codec⟩ : AcceptCandidate) ∈
      acceptCandidates m entries := by
  obtain ⟨mime, hmime⟩ := eligible_codecMIME_some m entries v h
  obtain ⟨hv, hs, hq⟩ := h
  rw [acceptCandidates_mem]
  rw [rateOf_eq entries v mime hmime] at hq ⊢
  exact ⟨v, hv, hs, mime, hmime, hq, rfl⟩

/-- Every candidate stands for an eligible variant carrying its rating and
its codec's priority. -/
theorem mem_candidates_spec (m : Media) (entries : List AcceptEntry) (c : AcceptCandidate)
    (h : c ∈ acceptCandidates m entries) :
    eligible m entries c.variant ∧ c.q = rateOf entries c.variant ∧
      c.prio = codecPriority c.variant.codec := by
  rw [acceptCandidates_mem] at h
  obtain ⟨v, hv, hs, mime, hmime, hq, rfl⟩ := h
  have hr : rateOf entries v = bestQFor entries mime := rateOf_eq entries v mime hmime
  exact ⟨⟨hv, hs, by rw [hr]; exact hq⟩, hr.symm, rfl⟩

/-- Codecs with a MIME type are the three known ones. -/
theorem codecMIME_some_cases (c : String) (mime : String) (h : codecMIME c = some mime) :
    c = "av1" ∨ c = "h264" ∨ c = "opus" := by
  unfold codecMIME at h
  split_ifs at h with h1 h2 h3
  · exact Or.inl h1
  · exact Or.inr (Or.inl h2)
  · exact Or.inr (Or.inr h3)

/-- On the three known codecs, the priority table is injective. -/
theorem codecPriority_inj (c1 c2 : String)
    (h1 : c1 = "av1" ∨ c1 = "h264" ∨ c1 = "opus")
    (h2 : c2 = "av1" ∨ c2 = "h264" ∨ c2 = "opus")
    (hne : c1 ≠ c2) : codecPriority c1 ≠ codecPriority c2 := by
  rcases h1 with rfl | rfl | rfl <;> rcases h2 with rfl | rfl | rfl <;>
    first
      | exact absurd rfl hne
      | decide

/-- The amended negotiation contract of BestVariantForAccept: an empty or
whitespace-only Accept header falls back to BestVariant; a non-empty
header (even one parsing to no entries) selects among eligible variants —
done variants with a non-negative best matching q — returning none when
none is eligible and otherwise an eligible variant that strictly beats
every other eligible variant on rating, with rating ties broken by the
codec priority table (AV1 before H264 before Opus). -/
def AcceptNegotiationCorrect (m : Media) (accept : String) : Prop :=
  (goTrimSpace accept = "" → m.BestVariantForAccept accept = m.BestVariant) ∧
  (goTrimSpace accept ≠ "" →
    ((¬ ∃ v, eligible m (parseAccept (goTrimSpace accept)) v) →
      m.BestVariantForAccept accept = none) ∧
    ((∃ v, eligible m (parseAccept (goTrimSpace accept)) v) →
      ∃ v, m.BestVariantForAccept accept = some v) ∧
    (∀ v, m.BestVariantForAccept accept = some v →
      eligible m (parseAccept (goTrimSpace accept)) v ∧
      ∀ w, eligible m (parseAccept (goTrimSpace accept)) w → w ≠ v →
        rateOf (parseAccept (goTrimSpace accept)) w <
            rateOf (parseAccept (goTrimSpace accept)) v ∨
          (rateOf (parseAccept (goTrimSpace accept)) w =
              rateOf (parseAccept (goTrimSpace accept)) v ∧
            codecPriority v.codec < codecPriority w.codec)))

/-- With a non-empty trimmed header, BestVariantForAccept is the candidate
selection. -/
theorem bestVariantForAccept_ne (m : Media) (accept : String)
    (h : goTrimSpace accept ≠ "") :
    m.BestVariantForAccept accept =
      (match acceptCandidates m (parseAccept (goTrimSpace accept)) with
       | [] => none
       | c :: cs => some ((cs.foldl pickBetter c)).variant) := by
  unfold Media.BestVariantForAccept
  rw [if_neg h]

/-- C4 amended: the negotiation contract holds for every media whose
variants carry pairwise distinct codecs (the documented at-most-one-
variant-per-codec invariant), the rating used is the highest q among
entries matching the variant's MIME exactly, via the full wildcard, or
via a type/* prefix wildcard, and parsing gives q its default 1.0,
ignores malformed q values, and reads well-formed decimal q values. -/
theorem bestVariantForAccept_selection_correct (m : Media) (accept : String)
    (hdist : ∀ v ∈ m.variants, ∀ w ∈ m.variants, v ≠ w → v.codec ≠ w.codec) :
    AcceptNegotiationCorrect m accept ∧
    RatesByHighestMatchingQ (parseAccept (goTrimSpace accept)) ∧
    parseAccept "video/mp4" = [{ mime := "video/mp4", q := 1 }] ∧
    parseAccept "video/mp4;q=abc" = [{ mime := "video/mp4", q := 1 }] ∧
    parseAccept "video/webm;q=0.5, video/mp4;q=0.9" =
      [{ mime := "video/webm", q := 1/2 }, { mime := "video/mp4", q := 9/10 }] := by
  refine ⟨⟨?_, ?_⟩, bestQFor_spec _, by with_unfolding_all rfl,
    by with_unfolding_all rfl, by with_unfolding_all rfl⟩
  · intro he
    unfold Media.BestVariantForAccept
    rw [if_pos he]
  · intro hne
    set entries := parseAccept (goTrimSpace accept) with hentries
    refine ⟨?_, ?_, ?_⟩
    · intro hnoelig
      rw [bestVariantForAccept_ne m accept hne]
      rw [← hentries]
      rcases hcand : acceptCandidates m entries with _ | ⟨c, cs⟩
      · rfl
      · exfalso
        have hc : c ∈ acceptCandidates m entries := by rw [hcand]; simp
        exact hnoelig ⟨c.variant, (mem_candidates_spec m entries c hc).1⟩
    · rintro ⟨v, hv⟩
      rw [bestVariantForAccept_ne m accept hne]
      rw [← hentries]
      rcases hcand : acceptCandidates m entries with _ | ⟨c, cs⟩
      · exfalso
        have := eligible_mk_mem m entries v hv
        rw [hcand] at this
        cases this
      · exact ⟨_, rfl⟩
    · intro v hv
      rw [bestVariantForAccept_ne m accept hne] at hv
      rw [← hentries] at hv
      rcases hcand : acceptCandidates m entries with _ | ⟨c, cs⟩
      · rw [hcand] at hv; cases hv
      · rw [hcand] at hv
        injection hv with hv
        obtain ⟨hmem, hmax⟩ := pickBetter_fold_spec cs c
        set r := cs.foldl pickBetter c with hr
        have hrmem : r ∈ acceptCandidates m entries := by
          rw [hcand]
          rcases hmem with h | h
          · rw [h]; simp
          · simp [h]
        obtain ⟨helig, hrq, hrprio⟩ := mem_candidates_spec m entries r hrmem
        subst hv
        refine ⟨helig, ?_⟩
        intro w hw hwne
        have hcw : (⟨w, rateOf entries w, codecPriority w.codec⟩ : AcceptCandidate) ∈
            acceptCandidates m entries := eligible_mk_mem m entries w hw
        have hcwmem : (⟨w, rateOf entries w, codecPriority w.codec⟩ : AcceptCandidate) = c ∨
            (⟨w, rateOf entries w, codecPriority w.codec⟩ : AcceptCandidate) ∈ cs := by
          rw [hcand] at hcw
          rcases List.mem_cons.mp hcw with h | h
          · exact Or.inl h
          · exact Or.inr h
        have hnb := hmax _ hcwmem
        rw [notBetter_iff] at hnb
        obtain ⟨hqle, hpimp⟩ := hnb
        rw [← hrq]
        rcases lt_or_eq_of_le hqle with hlt | heq
        · exact Or.inl hlt
        · refine Or.inr ⟨heq, ?_⟩
          have hprio := hpimp heq
          rw [hrprio] at hprio
          have hcodecne : r.variant.codec ≠ w.codec :=
            hdist r.variant helig.1 w hw.1 (fun h => hwne h.symm)
          obtain ⟨mimew, hmw⟩ := eligible_codecMIME_some m entries w hw
          obtain ⟨mimer, hmr⟩ := eligible_codecMIME_some m entries r.variant helig
          have hpne : codecPriority r.variant.codec ≠ codecPriority w.codec :=
            codecPriority_inj _ _ (codecMIME_some_cases _ _ hmr)
              (codecMIME_some_cases _ _ hmw) hcodecne
          exact lt_of_le_of_ne hprio hpne

/-- C4 counterexample: the claim's fallback and eligibility clauses fail
on the code.  The header "," is non-empty but parses to no entries at all;
the claim then requires the unconditional BestVariant fallback, yet
BestVariantForAccept returns none while BestVariant returns the done h264
variant.  Also, with the header "video/mp4;q=-1" the done h264 variant's
MIME is matched exactly, so per the claim it is rated (highest matching q
equals -1) and, being the only candidate, returned — but the code treats
any variant whose best matching q is negative as ineligible and returns
none. -/
theorem bestVariantForAccept_no_fallback_on_empty_entries :
    parseAccept "," = [] ∧
    Media.BestVariantForAccept
      (mkMedia MediaType.video MediaStatus.processing ""
        [mkVariant 1 "h264" VariantStatus.done]) "," = none ∧
    Media.BestVariant
      (mkMedia MediaType.video MediaStatus.processing ""
        [mkVariant 1 "h264" VariantStatus.done]) =
      some (mkVariant 1 "h264" VariantStatus.done) ∧
    parseAccept "video/mp4;q=-1" = [{ mime := "video/mp4", q := -1 }] ∧
    Media.BestVariantForAccept
      (mkMedia MediaType.video MediaStatus.processing ""
        [mkVariant 1 "h264" VariantStatus.done]) "video/mp4;q=-1" = none ∧
    codecMIME "h264" = some "video/mp4" := by
  refine ⟨by with_unfolding_all rfl, by with_unfolding_all rfl, by decide,
    by with_unfolding_all rfl, by with_unfolding_all rfl, by decide⟩

/-- Witness for C4's amended contract at the spec's own negotiation
scenario: done variants AV1 and H264 with Accept asking for mp4 at q=0.9
and webm at q=0.5. -/
theorem bestVariantForAccept_selection_correct_witness :
    AcceptNegotiationCorrect
      (mkMedia MediaType.video MediaStatus.processing ""
        [mkVariant 1 "av1" VariantStatus.done, mkVariant 2 "h264" VariantStatus.done])
      "video/webm;q=0.5, video/mp4;q=0.9" ∧
    RatesByHighestMatchingQ
      (parseAccept (goTrimSpace "video/webm;q=0.5, video/mp4;q=0.9")) ∧
    parseAccept "video/mp4" = [{ mime := "video/mp4", q := 1 }] ∧
    parseAccept "video/mp4;q=abc" = [{ mime := "video/mp4", q := 1 }] ∧
    parseAccept "video/webm;q=0.5, video/mp4;q=0.9" =
      [{ mime := "video/webm", q := 1/2 }, { mime := "video/mp4", q := 9/10 }] :=
  bestVariantForAccept_selection_correct
    (mkMedia MediaType.video MediaStatus.processing ""
      [mkVariant 1 "av1" VariantStatus.done, mkVariant 2 "h264" VariantStatus.done])
    "video/webm;q=0.5, video/mp4;q=0.9" (by decide)

end Sharm
